import Mathlib

/-!
# Kubernetes in-place vertical scaler: recommendation matching and quantity formatting

A shallow embedding of `src/main.go` (`getRecommendationForPod`,
`patchPodResources`) and `src/utils.go` (`formatCPU`, `formatMemory`), followed
by theorems about them.

Modelling conventions.

* A Go `string` is a Lean `String`.  The only byte-level operation the program
  performs is `strings.Split(_, "-")`; the byte `0x2D` never occurs inside a
  multi-byte UTF-8 sequence, so splitting on the character `-` is the same
  operation on every valid UTF-8 string.
* `map[string]Recommendation` is a function `String → Option Recommendation`;
  `rec, exists := recs[key]` is the application `recs key`.
* `(*Recommendation, error)` is `Except String Recommendation`; the error
  carries the message built by `fmt.Errorf`.
* Go `int` and `int64` are `Int`; range hypotheses are stated where they matter.
* A `float64` value is the rational number it denotes (`ℚ`); every operation
  `formatMemory` performs on floats is modelled with its exact IEEE-754 result.
-/

namespace Scaler

/-! ## Data model (`src/main.go`) -/

/-- The struct `Recommendation` of `src/main.go`, lines 21-29. -/
structure Recommendation where
  Namespace : String
  PodName : String
  ContainerName : String
  CPURequest : Int
  CPULimit : Int
  MemRequest : Int
  MemLimit : Int
  deriving DecidableEq, Repr

/-- The fields of `metav1.OwnerReference` that the program reads. -/
structure OwnerReference where
  Kind : String
  Name : String
  deriving DecidableEq, Repr

/-- The fields of `corev1.Pod` that the program reads. -/
structure Pod where
  Namespace : String
  Name : String
  OwnerReferences : List OwnerReference
  deriving DecidableEq, Repr

deriving instance DecidableEq for Except

/-- The Go type `map[string]Recommendation`, read-only. -/
abbrev RecMap := String → Option Recommendation

/-! ## `strings.Split` and `strings.Join` -/

/-- Splitting a character sequence at every occurrence of `sep`.  The result is
never empty: a sequence without `sep` yields itself as the only segment, and
the empty sequence yields one empty segment, as `strings.Split` does for a
non-empty separator. -/
def splitChars (sep : Char) : List Char → List (List Char)
  | [] => [[]]
  | c :: cs =>
    if c = sep then [] :: splitChars sep cs
    else
      match splitChars sep cs with
      | [] => [[c]]
      | p :: ps => (c :: p) :: ps

/-- Go `strings.Split(s, sep)` for a one-character separator. -/
def Split (s : String) (sep : Char) : List String :=
  (splitChars sep s.data).map String.mk

/-- Go `strings.Join(elems, sep)`. -/
def Join : List String → String → String
  | [], _ => ""
  | [a], _ => a
  | a :: b :: rest, sep => a ++ sep ++ Join (b :: rest) sep

/-! ## Error messages built by `fmt.Errorf` in `getRecommendationForPod` -/

/-- Line 72: `fmt.Errorf("pod %s/%s has no owner", pod.Namespace, pod.Name)`. -/
def noOwnerError (ns name : String) : String :=
  "pod " ++ ns ++ "/" ++ name ++ " has no owner"

/-- Line 77: `fmt.Errorf("unsupported owner kind: %s", owner.Kind)`. -/
def unsupportedOwnerKindError (kind : String) : String :=
  "unsupported owner kind: " ++ kind

/-- Line 88: `fmt.Errorf("malformed ReplicaSet name: %s", ownerName)`. -/
def malformedReplicaSetNameError (ownerName : String) : String :=
  "malformed ReplicaSet name: " ++ ownerName

/-- Line 97: `fmt.Errorf("no recommendation found for key: %s", key)`. -/
def noRecommendationFoundError (key : String) : String :=
  "no recommendation found for key: " ++ key

/-! ## `getRecommendationForPod` (`src/main.go`, lines 70-101) -/

/-- The function `getRecommendationForPod` of `src/main.go`.  `throw` is the
Go statement `return nil, fmt.Errorf(...)` and `return rec` is
`return &rec, nil`. -/
def getRecommendationForPod (pod : Pod) (recs : RecMap) : Except String Recommendation := do
  match pod.OwnerReferences with
  | [] => throw (noOwnerError pod.Namespace pod.Name)
  | owner :: _ =>
    if owner.Kind ≠ "StatefulSet" ∧ owner.Kind ≠ "ReplicaSet" then
      throw (unsupportedOwnerKindError owner.Kind)
    let mut ownerName := owner.Name
    if owner.Kind = "ReplicaSet" then
      let parts := Split ownerName '-'
      if parts.length < 2 then
        throw (malformedReplicaSetNameError ownerName)
      ownerName := Join (parts.take (parts.length - 1)) "-"
    let key := ownerName ++ pod.Namespace
    match recs key with
    | none => throw (noRecommendationFoundError key)
    | some rec => return rec

/-- The value of the local variable `ownerName` when control reaches line 93
of `getRecommendationForPod`, or the error returned before that line
(lines 71-91). -/
def ownerName (pod : Pod) : Except String String :=
  match pod.OwnerReferences with
  | [] => .error (noOwnerError pod.Namespace pod.Name)
  | owner :: _ =>
    if owner.Kind ≠ "StatefulSet" ∧ owner.Kind ≠ "ReplicaSet" then
      .error (unsupportedOwnerKindError owner.Kind)
    else if owner.Kind = "ReplicaSet" then
      let parts := Split owner.Name '-'
      if parts.length < 2 then
        .error (malformedReplicaSetNameError owner.Name)
      else
        .ok (Join (parts.take (parts.length - 1)) "-")
    else
      .ok owner.Name

/-- The value of the local variable `key` of `getRecommendationForPod`
(line 93: `key := ownerName + pod.Namespace`), or the error returned before
that line. -/
def key (pod : Pod) : Except String String :=
  match ownerName pod with
  | .error e => .error e
  | .ok n => .ok (n ++ pod.Namespace)

/-- The statements at lines 95-100 of `getRecommendationForPod`: the map
access `recs[key]` and the two `return`s that follow it. -/
def lookup (recs : RecMap) (key : String) : Except String Recommendation :=
  match recs key with
  | none => .error (noRecommendationFoundError key)
  | some rec => .ok rec

/-! ## `formatMemory` (`src/utils.go`, lines 18-21)

`formatMemory` converts its `int64` argument to `float64`, divides by the
constant `1024 * 1024`, applies `math.Round`, converts back to `int64` and
prints the result with `%dMi`.  Each step is modelled by its exact result:

* `float64(bytes)` rounds the integer to the nearest value with a 53-bit
  significand, ties to the even significand (IEEE-754 binary64, the only
  rounding mode Go uses); the result is again an integer;
* the division by `1048576 = 2^20` only changes the exponent, so its result is
  the exact quotient;
* `math.Round` returns the nearest integer, halves away from zero, exactly;
* `int64(_)` of an integer-valued float within the `int64` range is that
  integer.
-/

/-- The number of low-order bits of `a` that do not fit into a significand of
53 bits: the least `e` with `a < 2 ^ (53 + e)`, found by halving at most `fuel`
times. -/
def excessBits : Nat → Nat → Nat
  | 0, _ => 0
  | fuel + 1, a => if a < 2 ^ 53 then 0 else excessBits fuel (a / 2) + 1

/-- Rounding of a natural number to the nearest natural number with a
significand of at most 53 bits, ties to the even significand. -/
def roundNearestEven53 (a : Nat) : Nat :=
  let e := excessBits a a
  let q := 2 ^ e
  let m := a / q
  let r := a % q
  if 2 * r < q then m * q
  else if q < 2 * r then (m + 1) * q
  else if m % 2 = 0 then m * q
  else (m + 1) * q

/-- The Go conversion `float64(n)` of an `int64`, as the rational number the
resulting float denotes. -/
def float64 (n : Int) : ℚ :=
  if n < 0 then -((roundNearestEven53 n.natAbs : Nat) : ℚ)
  else ((roundNearestEven53 n.natAbs : Nat) : ℚ)

/-- Go `math.Round`: the nearest integer, halves rounded away from zero. -/
def Round (x : ℚ) : ℚ :=
  if x < 0 then -((⌊-x + 1 / 2⌋ : Int) : ℚ) else ((⌊x + 1 / 2⌋ : Int) : ℚ)

/-- The Go conversion `int64(x)` of a float: the fractional part is discarded
(truncation toward zero).  Only used on values within the `int64` range. -/
def int64 (x : ℚ) : Int :=
  if x < 0 then -⌊-x⌋ else ⌊x⌋

/-- The integer `formatMemory` prints: the argument
`int64(math.Round(mi))` of its `fmt.Sprintf` call, with
`mi := float64(bytes) / (1024 * 1024)`. -/
def roundedMi (bytes : Int) : Int :=
  let mi := float64 bytes / (1024 * 1024)
  int64 (Round mi)

/-- The function `formatMemory` of `src/utils.go`; `toString` on `Int` is the
verb `%d`. -/
def formatMemory (bytes : Int) : String :=
  toString (roundedMi bytes) ++ "Mi"

/-! ### The rounding of the specification -/

/-- Rounding of a rational number to the nearest integer, halves away from
zero, in the words of the specification. -/
def roundHalfAwayFromZero (x : ℚ) : Int :=
  if 0 ≤ x then ⌊x + 1 / 2⌋ else -⌊-x + 1 / 2⌋

/-- The specification of `FormatMemory`: `bytes / 1048576` rounded to the
nearest integer, halves away from zero, rendered in decimal and followed by
`Mi`. -/
def specFormatMemory (bytes : Int) : String :=
  toString (roundHalfAwayFromZero ((bytes : ℚ) / 1048576)) ++ "Mi"

/-- Rounding of the quotient `f / 2 ^ 20` of a natural number to the nearest
integer, halves up, with the sign given by `neg`: half-away-from-zero rounding
of `± f / 2 ^ 20` in integer arithmetic. -/
def signedRoundDiv (neg : Bool) (f : Nat) : Int :=
  if neg then -(((f + 524288) / 1048576 : Nat) : Int) else (((f + 524288) / 1048576 : Nat) : Int)

/-- Rounding of `a` to a multiple of `q`, to the nearest one and, half-way
between two, to the one with the even factor: the body of
`roundNearestEven53` for a given quantum `q`. -/
def roundTiesEven (q a : Nat) : Nat :=
  if 2 * (a % q) < q then a / q * q
  else if q < 2 * (a % q) then (a / q + 1) * q
  else if a / q % 2 = 0 then a / q * q
  else (a / q + 1) * q

/-! ## `formatCPU` (`src/utils.go`, lines 8-10) -/

/-- The function `formatCPU` of `src/utils.go`; `toString` on `Int` is the
verb `%d`. -/
def formatCPU (millicores : Int) : String :=
  toString millicores ++ "m"

/-- The number that a sequence of decimal digits denotes. -/
def decimalValue (cs : List Char) : Nat :=
  cs.foldl (fun acc c => 10 * acc + (c.toNat - 48)) 0

/-- The integer that a decimal numeral with an optional leading `-` denotes. -/
def signedDecimalValue : List Char → Int
  | [] => 0
  | c :: cs => if c = '-' then -(decimalValue cs : Int) else (decimalValue (c :: cs) : Int)

/-- A decimal numeral: an optional leading `-` followed by at least one digit
and nothing else. -/
def isSignedDecimal : List Char → Bool
  | [] => false
  | c :: cs =>
    if c = '-' then !cs.isEmpty && cs.all Char.isDigit else (c :: cs).all Char.isDigit

/-! ## `patchPodResources` (`src/main.go`, lines 113-146) -/

/-- The values the map literal of `patchPodResources` is built from: strings,
slices and maps with string keys (in the order of the literal). -/
inductive Value where
  | str : String → Value
  | list : List Value → Value
  | map : List (String × Value) → Value

/-- The entry of a map under a key, `none` for a missing key or a value that is
not a map. -/
def Value.get? : Value → String → Option Value
  | .map entries, k => (entries.find? fun e => e.1 == k).map Prod.snd
  | _, _ => none

/-- The keys of a map, in the order of the literal. -/
def Value.keys : Value → List String
  | .map entries => entries.map Prod.fst
  | _ => []

/-- The local variable `patch` of `patchPodResources` (lines 114-132): the
payload that is serialised and sent. -/
def patch (rec : Recommendation) : Value :=
  .map [
    ("spec", .map [
      ("containers", .list [
        .map [
          ("name", .str rec.ContainerName),
          ("resources", .map [
            ("requests", .map [
              ("cpu", .str (formatCPU rec.CPURequest)),
              ("memory", .str (formatMemory rec.MemRequest))]),
            ("limits", .map [
              ("cpu", .str (formatCPU rec.CPULimit)),
              ("memory", .str (formatMemory rec.MemLimit))])])]])])]

/-- The call `clientset.CoreV1().Pods(namespace).Patch(ctx, name, patchType,
body, options)` that `patchPodResources` issues (lines 138-144): the target of
the call and the payload. -/
structure PatchCall where
  Namespace : String
  Name : String
  PatchType : String
  Body : Value

/-- The function `patchPodResources` of `src/main.go`, as the call it issues to
the cluster; `json.Marshal` is the identity on the payload. -/
def patchPodResources (rec : Recommendation) : PatchCall :=
  ⟨rec.Namespace, rec.PodName, "application/strategic-merge-patch+json", patch rec⟩

/-! ## `getRecommendationForPod` with the store as state -/

/-- The function `getRecommendationForPod` of `src/main.go` with the map
`recs` held as state rather than passed as a value: the map is the state
before the call, the only access to it is the read `recs[key]` of line 95, and
the state after the call is returned next to the result. -/
def getRecommendationForPodM (pod : Pod) : ExceptT String (StateM RecMap) Recommendation := do
  match pod.OwnerReferences with
  | [] => throw (noOwnerError pod.Namespace pod.Name)
  | owner :: _ =>
    if owner.Kind ≠ "StatefulSet" ∧ owner.Kind ≠ "ReplicaSet" then
      throw (unsupportedOwnerKindError owner.Kind)
    let mut ownerName := owner.Name
    if owner.Kind = "ReplicaSet" then
      let parts := Split ownerName '-'
      if parts.length < 2 then
        throw (malformedReplicaSetNameError ownerName)
      ownerName := Join (parts.take (parts.length - 1)) "-"
    let key := ownerName ++ pod.Namespace
    let recs ← get
    match recs key with
    | none => throw (noRecommendationFoundError key)
    | some rec => return rec

/-- One call of `getRecommendationForPod` on the store `recs`: the result and
the store after the call. -/
def call (pod : Pod) (recs : RecMap) : Except String Recommendation × RecMap :=
  (getRecommendationForPodM pod).run.run recs

/-! ## Outcomes of `getRecommendationForPod` -/

/-- The five kinds of result `getRecommendationForPod` can return: one for each
`return` statement of the function. -/
inductive Outcome where
  | noOwner
  | unsupportedOwnerKind
  | malformedReplicaSetName
  | noRecommendationFound
  | success
  deriving DecidableEq, Repr

/-- A result is of kind `o`: it is the message of the matching `fmt.Errorf`
call for some arguments, or a returned record. -/
def Outcome.holds : Outcome → Except String Recommendation → Prop
  | .noOwner, r => ∃ ns name, r = .error (noOwnerError ns name)
  | .unsupportedOwnerKind, r => ∃ kind, r = .error (unsupportedOwnerKindError kind)
  | .malformedReplicaSetName, r => ∃ name, r = .error (malformedReplicaSetNameError name)
  | .noRecommendationFound, r => ∃ k, r = .error (noRecommendationFoundError k)
  | .success, r => ∃ rec, r = .ok rec

/-- The first character of the message of each kind of error. -/
def Outcome.initial : Outcome → Option Char
  | .noOwner => some 'p'
  | .unsupportedOwnerKind => some 'u'
  | .malformedReplicaSetName => some 'm'
  | .noRecommendationFound => some 'n'
  | .success => none

/-- First character of a message, if any. -/
def firstChar (s : String) : Option Char := s.data.head?

/-- The first character of the error message of a result, if it is an error. -/
def resultInitial : Except String Recommendation → Option Char
  | .ok _ => none
  | .error e => firstChar e

/-- A record and a store holding it under two keys, for concrete instances. -/
def sampleRec : Recommendation :=
  ⟨"prod", "web-0", "app", 250, 500, 1048576, 1572864⟩

/-- The store with `sampleRec` under the key `k` and nothing else. -/
def storeAt (k : String) : RecMap := fun k' => if k' = k then some sampleRec else none

/-- The empty store. -/
def emptyStore : RecMap := fun _ => none

/-! ## Lemmas on `strings.Split` and `strings.Join` -/

theorem splitChars_ne_nil (sep : Char) (cs : List Char) : splitChars sep cs ≠ [] := by
  cases cs with
  | nil => simp [splitChars]
  | cons c cs =>
    unfold splitChars
    split_ifs
    · simp
    · split <;> simp

theorem splitChars_cons_ne {sep c : Char} (hc : c ≠ sep) (cs : List Char) :
    ∃ p ps, splitChars sep cs = p :: ps ∧ splitChars sep (c :: cs) = (c :: p) :: ps := by
  obtain ⟨p, ps, hp⟩ := List.exists_cons_of_ne_nil (splitChars_ne_nil sep cs)
  refine ⟨p, ps, hp, ?_⟩
  rw [splitChars, if_neg hc, hp]

theorem splitChars_cons_sep (sep : Char) (cs : List Char) :
    splitChars sep (sep :: cs) = [] :: splitChars sep cs := by
  rw [splitChars, if_pos rfl]

/-- A sequence without the separator is its own single segment. -/
theorem splitChars_of_not_mem {sep : Char} :
    ∀ {cs : List Char}, sep ∉ cs → splitChars sep cs = [cs]
  | [], _ => rfl
  | c :: cs, h => by
    have hc : c ≠ sep := fun e => h (e ▸ List.mem_cons_self _ _)
    have hcs : sep ∉ cs := fun e => h (List.mem_cons_of_mem _ e)
    obtain ⟨p, ps, hp, hq⟩ := splitChars_cons_ne hc cs
    rw [splitChars_of_not_mem hcs] at hp
    cases hp
    exact hq

/-- Splitting distributes over a separator occurrence. -/
theorem splitChars_append_sep (sep : Char) (b : List Char) :
    ∀ a : List Char, splitChars sep (a ++ sep :: b) = splitChars sep a ++ splitChars sep b
  | [] => by simp [splitChars]
  | c :: a => by
    by_cases hc : c = sep
    · subst hc
      simp [splitChars_cons_sep, splitChars_append_sep c b a]
    · obtain ⟨p, ps, hp, hq⟩ := splitChars_cons_ne hc a
      obtain ⟨p2, ps2, hp2, hq2⟩ := splitChars_cons_ne hc (a ++ sep :: b)
      rw [List.cons_append, hq2, hq]
      rw [splitChars_append_sep sep b a, hp] at hp2
      simp only [List.cons_append, List.cons.injEq] at hp2
      obtain ⟨h1, h2⟩ := hp2
      subst h1 h2
      rfl

/-- The number of segments is one more than the number of separators. -/
theorem length_splitChars (sep : Char) :
    ∀ cs : List Char, (splitChars sep cs).length = cs.count sep + 1
  | [] => rfl
  | c :: cs => by
    by_cases hc : c = sep
    · subst hc
      simp [splitChars_cons_sep, length_splitChars c cs]
    · obtain ⟨p, ps, hp, hq⟩ := splitChars_cons_ne hc cs
      have ih := length_splitChars sep cs
      rw [hp] at ih
      rw [hq, List.count_cons_of_ne (Ne.symm hc), ← ih]
      rfl

theorem length_Split (s : String) (sep : Char) :
    (Split s sep).length = s.data.count sep + 1 := by
  simp [Split, length_splitChars]

/-- Fewer than two segments result exactly when the separator does not occur. -/
theorem length_Split_lt_two (s : String) (sep : Char) :
    (Split s sep).length < 2 ↔ sep ∉ s.data := by
  rw [length_Split, ← List.count_eq_zero]
  omega

theorem mk_cons_append (c : Char) (p : List Char) (t : String) :
    String.mk (c :: p) ++ t = String.mk (c :: (String.mk p ++ t).data) := by
  apply String.ext
  simp [String.data_append]

/-- Joining the segments of a split with the separator gives the sequence back. -/
theorem Join_splitChars (sep : Char) :
    ∀ cs : List Char,
      Join ((splitChars sep cs).map String.mk) (String.mk [sep]) = String.mk cs
  | [] => rfl
  | c :: cs => by
    have ih := Join_splitChars sep cs
    by_cases hc : c = sep
    · subst hc
      obtain ⟨p, ps, hp⟩ := List.exists_cons_of_ne_nil (splitChars_ne_nil c cs)
      rw [splitChars_cons_sep, hp]
      rw [hp] at ih
      simp only [List.map_cons] at ih ⊢
      rw [Join, ih]
      apply String.ext
      simp [String.data_append]
    · obtain ⟨p, ps, hp, hq⟩ := splitChars_cons_ne hc cs
      rw [hq]
      rw [hp] at ih
      cases ps with
      | nil =>
        simp only [List.map_cons, List.map_nil, Join] at ih ⊢
        have hpc : p = cs := congrArg String.data ih
        rw [hpc]
      | cons p2 ps2 =>
        simp only [List.map_cons, Join] at ih ⊢
        rw [String.append_assoc, mk_cons_append, ← String.append_assoc, ih]

/-- Dropping the last segment of `a ++ sep ++ h`, where `h` has no separator,
and joining the rest gives `a` back. -/
theorem Join_take_Split (d h : String) (hh : '-' ∉ h.data) :
    (Split (d ++ "-" ++ h) '-').length ≥ 2 ∧
    Join ((Split (d ++ "-" ++ h) '-').take ((Split (d ++ "-" ++ h) '-').length - 1)) "-" = d := by
  have hd : (d ++ "-" ++ h).data = d.data ++ '-' :: h.data := by
    simp [String.data_append]
  have hs : Split (d ++ "-" ++ h) '-' = (splitChars '-' d.data).map String.mk ++ [h] := by
    simp [Split, hd, splitChars_append_sep, splitChars_of_not_mem hh]
  rw [hs]
  have hne := splitChars_ne_nil '-' d.data
  have hlen : 0 < (splitChars '-' d.data).length := List.length_pos.mpr hne
  refine ⟨by simp; omega, ?_⟩
  have : (List.map String.mk (splitChars '-' d.data) ++ [h]).length - 1
      = (List.map String.mk (splitChars '-' d.data)).length := by simp
  rw [this, List.take_left]
  exact Join_splitChars '-' d.data

/-! ## Lemmas on `getRecommendationForPod` -/

/-- The function is the key derivation of lines 71-93 followed by the lookup of
lines 95-100; an error of the derivation is returned as it is. -/
theorem getRecommendationForPod_eq (pod : Pod) (recs : RecMap) :
    getRecommendationForPod pod recs =
      match key pod with
      | .error e => .error e
      | .ok k => lookup recs k := by
  unfold getRecommendationForPod key ownerName lookup
  cases pod.OwnerReferences with
  | nil => rfl
  | cons owner rest =>
    dsimp only
    split_ifs <;> rfl

theorem key_nil (ns pn : String) :
    key ⟨ns, pn, []⟩ = .error (noOwnerError ns pn) := rfl

theorem key_unsupported (ns pn kind name : String) (rest : List OwnerReference)
    (h1 : kind ≠ "StatefulSet") (h2 : kind ≠ "ReplicaSet") :
    key ⟨ns, pn, ⟨kind, name⟩ :: rest⟩ = .error (unsupportedOwnerKindError kind) := by
  simp [key, ownerName, h1, h2]

theorem key_statefulSet (ns pn name : String) (rest : List OwnerReference) :
    key ⟨ns, pn, ⟨"StatefulSet", name⟩ :: rest⟩ = .ok (name ++ ns) := by
  simp [key, ownerName]

theorem key_replicaSet_malformed (ns pn name : String) (rest : List OwnerReference)
    (h : '-' ∉ name.data) :
    key ⟨ns, pn, ⟨"ReplicaSet", name⟩ :: rest⟩ = .error (malformedReplicaSetNameError name) := by
  have := (length_Split_lt_two name '-').mpr h
  simp [key, ownerName, this]

theorem key_replicaSet_ok (ns pn name : String) (rest : List OwnerReference)
    (h : '-' ∈ name.data) :
    key ⟨ns, pn, ⟨"ReplicaSet", name⟩ :: rest⟩ =
      .ok (Join ((Split name '-').take ((Split name '-').length - 1)) "-" ++ ns) := by
  have : ¬ (Split name '-').length < 2 := fun hl => (length_Split_lt_two name '-').mp hl h
  simp [key, ownerName, this]

theorem key_replicaSet_hash (d h ns pn : String) (rest : List OwnerReference)
    (hh : '-' ∉ h.data) :
    key ⟨ns, pn, ⟨"ReplicaSet", d ++ "-" ++ h⟩ :: rest⟩ = .ok (d ++ ns) := by
  have hmem : '-' ∈ (d ++ "-" ++ h).data := by simp [String.data_append]
  rw [key_replicaSet_ok _ _ _ _ hmem, (Join_take_Split d h hh).2]

/-! ## The four error messages are told apart by their first character -/

theorem firstChar_noOwnerError (ns name : String) :
    firstChar (noOwnerError ns name) = some 'p' := by
  simp [firstChar, noOwnerError, String.data_append]

theorem firstChar_unsupportedOwnerKindError (kind : String) :
    firstChar (unsupportedOwnerKindError kind) = some 'u' := by
  simp [firstChar, unsupportedOwnerKindError, String.data_append]

theorem firstChar_malformedReplicaSetNameError (name : String) :
    firstChar (malformedReplicaSetNameError name) = some 'm' := by
  simp [firstChar, malformedReplicaSetNameError, String.data_append]

theorem firstChar_noRecommendationFoundError (k : String) :
    firstChar (noRecommendationFoundError k) = some 'n' := by
  simp [firstChar, noRecommendationFoundError, String.data_append]

theorem initial_of_holds {o : Outcome} {r : Except String Recommendation} (h : o.holds r) :
    resultInitial r = o.initial := by
  cases o <;> simp only [Outcome.holds] at h
  · obtain ⟨ns, n, rfl⟩ := h
    exact firstChar_noOwnerError ns n
  · obtain ⟨k, rfl⟩ := h
    exact firstChar_unsupportedOwnerKindError k
  · obtain ⟨k, rfl⟩ := h
    exact firstChar_malformedReplicaSetNameError k
  · obtain ⟨k, rfl⟩ := h
    exact firstChar_noRecommendationFoundError k
  · obtain ⟨k, rfl⟩ := h
    rfl

/-- A result is of at most one kind. -/
theorem holds_unique {o o' : Outcome} {r : Except String Recommendation}
    (h : o.holds r) (h' : o'.holds r) : o = o' := by
  have e := (initial_of_holds h).symm.trans (initial_of_holds h')
  revert e
  cases o <;> cases o' <;> simp [Outcome.initial]

/-- The derivation of the key ends in one of four ways, fixed by the pod. -/
theorem key_cases (pod : Pod) :
    (pod.OwnerReferences = [] ∧ key pod = .error (noOwnerError pod.Namespace pod.Name)) ∨
    (∃ kind, key pod = .error (unsupportedOwnerKindError kind)) ∨
    (∃ name, key pod = .error (malformedReplicaSetNameError name)) ∨
    (∃ k, key pod = .ok k) := by
  obtain ⟨ns, pn, owners⟩ := pod
  cases owners with
  | nil => exact Or.inl ⟨rfl, rfl⟩
  | cons owner rest =>
    obtain ⟨kind, name⟩ := owner
    by_cases h1 : kind = "StatefulSet"
    · subst h1
      exact Or.inr (Or.inr (Or.inr ⟨_, key_statefulSet ns pn name rest⟩))
    · by_cases h2 : kind = "ReplicaSet"
      · subst h2
        by_cases hm : '-' ∈ name.data
        · exact Or.inr (Or.inr (Or.inr ⟨_, key_replicaSet_ok ns pn name rest hm⟩))
        · exact Or.inr (Or.inr (Or.inl ⟨_, key_replicaSet_malformed ns pn name rest hm⟩))
      · exact Or.inr (Or.inl ⟨_, key_unsupported ns pn kind name rest h1 h2⟩)

theorem lookup_some {recs : RecMap} {k : String} {rec : Recommendation}
    (h : recs k = some rec) : lookup recs k = .ok rec := by
  simp [lookup, h]

theorem lookup_none {recs : RecMap} {k : String} (h : recs k = none) :
    lookup recs k = .error (noRecommendationFoundError k) := by
  simp [lookup, h]

theorem get_of_key_ok {pod : Pod} {k : String} (recs : RecMap) (h : key pod = .ok k) :
    getRecommendationForPod pod recs = lookup recs k := by
  rw [getRecommendationForPod_eq, h]

theorem get_of_key_error {pod : Pod} {e : String} (recs : RecMap) (h : key pod = .error e) :
    getRecommendationForPod pod recs = .error e := by
  rw [getRecommendationForPod_eq, h]

/-- An error of the key derivation is of one of the first three kinds. -/
theorem key_error_holds {pod : Pod} {e : String} (h : key pod = .error e) :
    ∃ o : Outcome, o ≠ .noRecommendationFound ∧ o ≠ .success ∧
      o.holds (.error e : Except String Recommendation) := by
  rcases key_cases pod with ⟨_, h1⟩ | ⟨kind, h1⟩ | ⟨name, h1⟩ | ⟨k, h1⟩
  · rw [h1] at h
    cases h
    exact ⟨.noOwner, by decide, by decide, _, _, rfl⟩
  · rw [h1] at h
    cases h
    exact ⟨.unsupportedOwnerKind, by decide, by decide, _, rfl⟩
  · rw [h1] at h
    cases h
    exact ⟨.malformedReplicaSetName, by decide, by decide, _, rfl⟩
  · rw [h1] at h
    cases h

/-- The lookup ends in the not-found error or in success, as the store decides. -/
theorem lookup_cases (recs : RecMap) (k : String) :
    (recs k = none ∧ lookup recs k = .error (noRecommendationFoundError k)) ∨
    (∃ rec, recs k = some rec ∧ lookup recs k = .ok rec) := by
  cases hr : recs k with
  | none => exact Or.inl ⟨rfl, lookup_none hr⟩
  | some rec => exact Or.inr ⟨rec, rfl, lookup_some hr⟩

theorem noRecommendationFoundError_injective {k k' : String}
    (h : noRecommendationFoundError k = noRecommendationFoundError k') : k = k' := by
  have := congrArg String.data h
  simp only [noRecommendationFoundError, String.data_append] at this
  exact String.ext (List.append_cancel_left this)

/-! ## Lemmas on `formatMemory` -/

theorem excessBits_le (k : Nat) : ∀ fuel a : Nat, a < 2 ^ (53 + k) → excessBits fuel a ≤ k := by
  induction k with
  | zero =>
    intro fuel a h
    cases fuel with
    | zero => simp [excessBits]
    | succ fuel =>
      have h0 : a < 2 ^ 53 := h
      rw [excessBits, if_pos h0]
  | succ k ih =>
    intro fuel a h
    cases fuel with
    | zero => simp [excessBits]
    | succ fuel =>
      unfold excessBits
      split_ifs
      · omega
      · have h2 : a / 2 < 2 ^ (53 + k) := by
          have hp : 2 ^ (53 + (k + 1)) = 2 * 2 ^ (53 + k) := by
            rw [← Nat.add_assoc, Nat.pow_succ, Nat.mul_comm]
          omega
        have := ih fuel (a / 2) h2
        omega

/-- With enough halvings allowed, `a` is below `2 ^ (53 + excessBits fuel a)`. -/
theorem lt_two_pow_excessBits : ∀ fuel a : Nat, a < 2 ^ (53 + fuel) →
    a < 2 ^ (53 + excessBits fuel a) := by
  intro fuel
  induction fuel with
  | zero =>
    intro a h
    exact h
  | succ fuel ih =>
    intro a h
    unfold excessBits
    split_ifs with h0
    · exact h0
    · have hp : 2 ^ (53 + (fuel + 1)) = 2 * 2 ^ (53 + fuel) := by
        rw [← Nat.add_assoc, Nat.pow_succ, Nat.mul_comm]
      have h2 : a / 2 < 2 ^ (53 + fuel) := by omega
      have h3 := ih (a / 2) h2
      have hq : 2 ^ (53 + (excessBits fuel (a / 2) + 1))
          = 2 * 2 ^ (53 + excessBits fuel (a / 2)) := by
        rw [← Nat.add_assoc, Nat.pow_succ, Nat.mul_comm]
      omega

/-- A positive number of excess bits is the least one: the significand
`a / 2 ^ e` has its 53rd bit set. -/
theorem two_pow_le_of_excessBits_pos : ∀ fuel a : Nat, 0 < excessBits fuel a →
    2 ^ (52 + excessBits fuel a) ≤ a := by
  intro fuel
  induction fuel with
  | zero =>
    intro a h
    simp [excessBits] at h
  | succ fuel ih =>
    intro a h
    unfold excessBits at h ⊢
    split_ifs at h ⊢ with h0
    · exact absurd h (by decide)
    · have hq : 2 ^ (52 + (excessBits fuel (a / 2) + 1))
          = 2 * 2 ^ (52 + excessBits fuel (a / 2)) := by
        rw [← Nat.add_assoc, Nat.pow_succ, Nat.mul_comm]
      rcases Nat.eq_zero_or_pos (excessBits fuel (a / 2)) with hz | hz
      · rw [hz]
        have h53 : ¬ a < 9007199254740992 := h0
        show 2 ^ 53 ≤ a
        have : (2 : Nat) ^ 53 = 9007199254740992 := by decide
        omega
      · have := ih (a / 2) hz
        omega

/-- The significand kept by `roundNearestEven53` has at most 53 bits. -/
theorem significand_lt (a : Nat) : a / 2 ^ excessBits a a < 2 ^ 53 := by
  have h1 : a < 2 ^ (53 + a) :=
    Nat.lt_of_lt_of_le (Nat.lt_two_pow a) (Nat.pow_le_pow_right (by decide) (Nat.le_add_left _ _))
  have h2 := lt_two_pow_excessBits a a h1
  rw [Nat.pow_add] at h2
  exact (Nat.div_lt_iff_lt_mul (Nat.two_pow_pos _)).mpr h2

/-- Every integer below `2 ^ 53` is a `float64`. -/
theorem roundNearestEven53_of_lt {a : Nat} (h : a < 2 ^ 53) : roundNearestEven53 a = a := by
  have he : excessBits a a = 0 := Nat.le_zero.mp (excessBits_le 0 a a h)
  simp [roundNearestEven53, he, Nat.mod_one]

/-- Every integer up to `2 ^ 53` is a `float64`. -/
theorem roundNearestEven53_of_le {a : Nat} (h : a ≤ 2 ^ 53) : roundNearestEven53 a = a := by
  rcases Nat.lt_or_eq_of_le h with h | h
  · exact roundNearestEven53_of_lt h
  · subst h
    decide

/-- Below `2 ^ 64` the conversion to `float64` moves an integer by at most
`2 ^ 10`. -/
theorem roundNearestEven53_near {a : Nat} (h : a < 2 ^ 64) :
    roundNearestEven53 a ≤ a + 1024 ∧ a ≤ roundNearestEven53 a + 1024 := by
  have he : excessBits a a ≤ 11 := excessBits_le 11 a a h
  have hq : 2 ^ excessBits a a ≤ 2048 := by
    calc 2 ^ excessBits a a ≤ 2 ^ 11 := Nat.pow_le_pow_right (by decide) he
      _ = 2048 := by decide
  have hq0 : 0 < 2 ^ excessBits a a := Nat.two_pow_pos _
  have hdm := Nat.div_add_mod a (2 ^ excessBits a a)
  have hr := Nat.mod_lt a hq0
  have hcomm : a / 2 ^ excessBits a a * 2 ^ excessBits a a
      = 2 ^ excessBits a a * (a / 2 ^ excessBits a a) := Nat.mul_comm _ _
  unfold roundNearestEven53
  simp only [Nat.succ_mul, Nat.add_mul, Nat.one_mul]
  split_ifs <;> omega

theorem floor_add_half (f : Nat) :
    ⌊(f : ℚ) / (1024 * 1024) + 1 / 2⌋ = (((f + 524288) / 1048576 : Nat) : Int) := by
  have h : (f : ℚ) / (1024 * 1024) + 1 / 2
      = (((f + 524288 : Nat) : Int) : ℚ) / ((1048576 : Nat) : ℚ) := by
    push_cast
    ring
  rw [h, Rat.floor_intCast_div_natCast]
  norm_cast

/-- The integer printed by `formatMemory`, in integer arithmetic. -/
theorem roundedMi_eq (bytes : Int) :
    roundedMi bytes = signedRoundDiv (decide (bytes < 0)) (roundNearestEven53 bytes.natAbs) := by
  unfold roundedMi float64 Round int64 signedRoundDiv
  by_cases hb : bytes < 0
  · simp only [hb, if_true, decide_True]
    generalize roundNearestEven53 bytes.natAbs = f
    have hfl := floor_add_half f
    have hsimp : -(-(f : ℚ) / (1024 * 1024)) + 1 / 2 = (f : ℚ) / (1024 * 1024) + 1 / 2 := by ring
    rcases Nat.eq_zero_or_pos f with hf | hf
    · subst hf
      norm_num
    · have hneg : -(f : ℚ) / (1024 * 1024) < 0 := by
        have : (0 : ℚ) < f := by exact_mod_cast hf
        apply div_neg_of_neg_of_pos <;> linarith
      rw [if_pos hneg, hsimp, hfl]
      split_ifs
      · rw [neg_neg, Int.floor_intCast]
      · rw [← Int.cast_neg, Int.floor_intCast]
  · simp only [hb, if_false, decide_False]
    generalize roundNearestEven53 bytes.natAbs = f
    have hfl := floor_add_half f
    have hpos : ¬ (f : ℚ) / (1024 * 1024) < 0 := by
      have : (0 : ℚ) ≤ f := by exact_mod_cast Nat.zero_le f
      have : (0 : ℚ) ≤ (f : ℚ) / (1024 * 1024) := by positivity
      linarith
    rw [if_neg hpos, hfl]
    have : ¬ (((((f + 524288) / 1048576 : Nat) : Int) : ℚ) < 0) := by
      have : (0 : ℚ) ≤ ((((f + 524288) / 1048576 : Nat) : Int) : ℚ) := by positivity
      linarith
    rw [if_neg this, Int.floor_intCast]
    simp

/-- The rounding of the specification, in integer arithmetic. -/
theorem roundHalfAwayFromZero_eq (bytes : Int) :
    roundHalfAwayFromZero ((bytes : ℚ) / 1048576)
      = signedRoundDiv (decide (bytes < 0)) bytes.natAbs := by
  unfold roundHalfAwayFromZero signedRoundDiv
  have hfl := floor_add_half bytes.natAbs
  have h20 : (1024 * 1024 : ℚ) = 1048576 := by norm_num
  rw [h20] at hfl
  by_cases hb : bytes < 0
  · have habs : (bytes : ℚ) = -((bytes.natAbs : Nat) : ℚ) := by
      have : bytes = -((bytes.natAbs : Nat) : Int) := by omega
      calc (bytes : ℚ) = ((-((bytes.natAbs : Nat) : Int) : Int) : ℚ) := congrArg _ this
        _ = -((bytes.natAbs : Nat) : ℚ) := by rw [Int.cast_neg, Int.cast_natCast]
    have hneg : ¬ (0 : ℚ) ≤ (bytes : ℚ) / 1048576 := by
      have : (bytes : ℚ) < 0 := by exact_mod_cast hb
      have := div_neg_of_neg_of_pos this (by norm_num : (0 : ℚ) < 1048576)
      linarith
    rw [if_neg hneg]
    simp only [hb, decide_True, if_true]
    have hsimp : -((bytes : ℚ) / 1048576) + 1 / 2
        = ((bytes.natAbs : Nat) : ℚ) / 1048576 + 1 / 2 := by
      rw [habs]
      ring
    rw [hsimp, hfl]
  · have habs : (bytes : ℚ) = ((bytes.natAbs : Nat) : ℚ) := by
      have : bytes = ((bytes.natAbs : Nat) : Int) := by omega
      calc (bytes : ℚ) = ((((bytes.natAbs : Nat) : Int) : Int) : ℚ) := congrArg _ this
        _ = ((bytes.natAbs : Nat) : ℚ) := Int.cast_natCast _
    have hpos : (0 : ℚ) ≤ (bytes : ℚ) / 1048576 := by
      rw [habs]
      positivity
    rw [if_pos hpos]
    simp only [hb, decide_False]
    rw [habs, hfl]
    simp

/-- The rounding of the specification applied to `float64(bytes) / 2 ^ 20` is
what `formatMemory` prints. -/
theorem roundHalfAwayFromZero_float64 (bytes : Int) :
    roundHalfAwayFromZero (float64 bytes / 1048576) = roundedMi bytes := by
  rw [roundedMi_eq]
  unfold float64
  generalize roundNearestEven53 bytes.natAbs = f
  by_cases hb : bytes < 0
  · simp only [hb, if_true, decide_True]
    have hc : -((f : Nat) : ℚ) = ((-(f : Int) : Int) : ℚ) := by
      rw [Int.cast_neg, Int.cast_natCast]
    rw [hc, roundHalfAwayFromZero_eq]
    rcases Nat.eq_zero_or_pos f with hf | hf
    · subst hf
      decide
    · have hlt : -(f : Int) < 0 := by omega
      simp only [hlt, decide_True, Int.natAbs_neg, Int.natAbs_ofNat]
  · simp only [hb, if_false, decide_False]
    have hc : ((f : Nat) : ℚ) = (((f : Int) : Int) : ℚ) := (Int.cast_natCast f).symm
    rw [hc, roundHalfAwayFromZero_eq]
    have hlt : ¬ (f : Int) < 0 := by omega
    simp only [hlt, decide_False, Int.natAbs_ofNat]

theorem signedRoundDiv_near (neg : Bool) {f a : Nat} (h1 : f ≤ a + 1024) (h2 : a ≤ f + 1024) :
    |signedRoundDiv neg f - signedRoundDiv neg a| ≤ 1 := by
  rw [abs_le]
  unfold signedRoundDiv
  cases neg <;> simp only [if_true, if_false, Bool.false_eq_true] <;> omega

theorem signedRoundDiv_bound (neg : Bool) {f : Nat} (h : f ≤ 2 ^ 63 + 1024) :
    |signedRoundDiv neg f| ≤ 2 ^ 43 := by
  rw [abs_le]
  unfold signedRoundDiv
  have h' : f ≤ 9223372036854775808 + 1024 := h
  cases neg <;> simp only [if_true, if_false, Bool.false_eq_true] <;> omega

/-! ## Key derivation for the two supported owner kinds -/

/-- C1: for a pod in namespace `ns` whose first owner is the ReplicaSet
`d ++ "-" ++ h`, where the hash suffix `h` has no `-` (and `d` is arbitrary),
`getRecommendationForPod` derives the key `d ++ ns`: it returns the entry of
the store under that key when there is one, and the "no recommendation found
for key: d ++ ns" error when there is none. -/
theorem replicaSet_pod_looks_up_deployment_key (d h ns pn : String)
    (rest : List OwnerReference) (recs : RecMap) (hh : '-' ∉ h.data) :
    key ⟨ns, pn, ⟨"ReplicaSet", d ++ "-" ++ h⟩ :: rest⟩ = .ok (d ++ ns) ∧
    getRecommendationForPod ⟨ns, pn, ⟨"ReplicaSet", d ++ "-" ++ h⟩ :: rest⟩ recs =
      (match recs (d ++ ns) with
        | some rec => .ok rec
        | none => .error (noRecommendationFoundError (d ++ ns))) := by
  have hk := key_replicaSet_hash d h ns pn rest hh
  refine ⟨hk, ?_⟩
  rw [get_of_key_ok recs hk]
  cases hr : recs (d ++ ns) with
  | none => exact lookup_none hr
  | some rec => exact lookup_some hr

/-- Instances of C1: the owner names `X-abc123` and `my-deploy-75cb66cbcf` give
the keys `X ++ ns` and `my-deploy ++ ns`, found in one store and missing from
another. -/
theorem replicaSet_pod_looks_up_deployment_key_witness :
    ('-' ∉ "abc123".data ∧ '-' ∉ "75cb66cbcf".data) ∧
    key ⟨"prod", "web-0", [⟨"ReplicaSet", "X-abc123"⟩]⟩ = .ok "Xprod" ∧
    getRecommendationForPod ⟨"prod", "web-0", [⟨"ReplicaSet", "X-abc123"⟩]⟩
      (storeAt "Xprod") = .ok sampleRec ∧
    key ⟨"prod", "web-0", [⟨"ReplicaSet", "my-deploy-75cb66cbcf"⟩]⟩ = .ok "my-deployprod" ∧
    getRecommendationForPod ⟨"prod", "web-0", [⟨"ReplicaSet", "my-deploy-75cb66cbcf"⟩]⟩
      emptyStore = .error "no recommendation found for key: my-deployprod" :=
  ⟨⟨by decide, by decide⟩,
   (replicaSet_pod_looks_up_deployment_key "X" "abc123" "prod" "web-0" []
      (storeAt "Xprod") (by decide)).1,
   (replicaSet_pod_looks_up_deployment_key "X" "abc123" "prod" "web-0" []
      (storeAt "Xprod") (by decide)).2,
   (replicaSet_pod_looks_up_deployment_key "my-deploy" "75cb66cbcf" "prod" "web-0" []
      emptyStore (by decide)).1,
   (replicaSet_pod_looks_up_deployment_key "my-deploy" "75cb66cbcf" "prod" "web-0" []
      emptyStore (by decide)).2⟩

/-- C2: for a pod in namespace `ns` whose first owner is the StatefulSet `n`
(any name, with or without `-`), `getRecommendationForPod` uses the key
`n ++ ns`, the name unchanged: it returns the entry under that key when there
is one and the "no recommendation found" error for that key otherwise. -/
theorem statefulSet_pod_looks_up_owner_name_key (n ns pn : String)
    (rest : List OwnerReference) (recs : RecMap) :
    key ⟨ns, pn, ⟨"StatefulSet", n⟩ :: rest⟩ = .ok (n ++ ns) ∧
    getRecommendationForPod ⟨ns, pn, ⟨"StatefulSet", n⟩ :: rest⟩ recs =
      (match recs (n ++ ns) with
        | some rec => .ok rec
        | none => .error (noRecommendationFoundError (n ++ ns))) := by
  have hk := key_statefulSet ns pn n rest
  refine ⟨hk, ?_⟩
  rw [get_of_key_ok recs hk]
  cases hr : recs (n ++ ns) with
  | none => exact lookup_none hr
  | some rec => exact lookup_some hr

/-- C3: two pods of one namespace whose first owners are the ReplicaSets
`d ++ "-" ++ h1` and `d ++ "-" ++ h2`, with dash-free hashes, get the same
result from `getRecommendationForPod` against every store. -/
theorem replicaSet_churn_same_result (d h1 h2 ns pn1 pn2 : String)
    (rest1 rest2 : List OwnerReference) (recs : RecMap)
    (hh1 : '-' ∉ h1.data) (hh2 : '-' ∉ h2.data) :
    getRecommendationForPod ⟨ns, pn1, ⟨"ReplicaSet", d ++ "-" ++ h1⟩ :: rest1⟩ recs =
    getRecommendationForPod ⟨ns, pn2, ⟨"ReplicaSet", d ++ "-" ++ h2⟩ :: rest2⟩ recs := by
  rw [get_of_key_ok recs (key_replicaSet_hash d h1 ns pn1 rest1 hh1),
    get_of_key_ok recs (key_replicaSet_hash d h2 ns pn2 rest2 hh2)]

/-- Instance of C3: the replica sets `my-deploy-75cb66cbcf` and
`my-deploy-5d4f8c7b9` of one deployment. -/
theorem replicaSet_churn_same_result_witness :
    '-' ∉ "75cb66cbcf".data ∧ '-' ∉ "5d4f8c7b9".data ∧
    getRecommendationForPod ⟨"prod", "web-0", [⟨"ReplicaSet", "my-deploy-75cb66cbcf"⟩]⟩
      (storeAt "my-deployprod") =
    getRecommendationForPod ⟨"prod", "web-1", [⟨"ReplicaSet", "my-deploy-5d4f8c7b9"⟩]⟩
      (storeAt "my-deployprod") :=
  ⟨by decide, by decide,
   replicaSet_churn_same_result "my-deploy" "75cb66cbcf" "5d4f8c7b9" "prod" "web-0" "web-1"
     [] [] (storeAt "my-deployprod") (by decide) (by decide)⟩

/-! ## The three errors of the key derivation -/

/-- C4: for a pod whose first owner is a ReplicaSet, `getRecommendationForPod`
fails with the malformed-ReplicaSet-name error exactly when the owner name has
no `-`, whatever the store holds; the message then carries the owner name. -/
theorem malformed_iff_no_dash (ns pn name : String) (rest : List OwnerReference)
    (recs : RecMap) :
    (Outcome.malformedReplicaSetName.holds
        (getRecommendationForPod ⟨ns, pn, ⟨"ReplicaSet", name⟩ :: rest⟩ recs) ↔
      '-' ∉ name.data) ∧
    (getRecommendationForPod ⟨ns, pn, ⟨"ReplicaSet", name⟩ :: rest⟩ recs =
        .error (malformedReplicaSetNameError name) ↔
      '-' ∉ name.data) ∧
    ((Split name '-').length < 2 ↔ '-' ∉ name.data) := by
  have hno : '-' ∉ name.data →
      getRecommendationForPod ⟨ns, pn, ⟨"ReplicaSet", name⟩ :: rest⟩ recs =
        .error (malformedReplicaSetNameError name) := fun h =>
    get_of_key_error recs (key_replicaSet_malformed ns pn name rest h)
  have hyes : '-' ∈ name.data →
      ¬ Outcome.malformedReplicaSetName.holds
        (getRecommendationForPod ⟨ns, pn, ⟨"ReplicaSet", name⟩ :: rest⟩ recs) := by
    intro h hm
    rw [get_of_key_ok recs (key_replicaSet_ok ns pn name rest h)] at hm
    cases hr : recs (Join ((Split name '-').take ((Split name '-').length - 1)) "-" ++ ns) with
    | none =>
      rw [lookup_none hr] at hm
      exact absurd (@holds_unique _ .noRecommendationFound _ hm ⟨_, rfl⟩) (by decide)
    | some rec =>
      rw [lookup_some hr] at hm
      exact absurd (@holds_unique _ .success _ hm ⟨_, rfl⟩) (by decide)
  refine ⟨⟨fun hm h => hyes h hm, fun h => ⟨name, hno h⟩⟩,
    ⟨fun he h => hyes h ⟨name, he⟩, hno⟩, length_Split_lt_two name '-'⟩

/-- Instance of C4: the owner name `single` is rejected although the store has
an entry under `single ++ ns`. -/
theorem malformed_iff_no_dash_witness :
    storeAt "singleprod" "singleprod" = some sampleRec ∧
    getRecommendationForPod ⟨"prod", "web-0", [⟨"ReplicaSet", "single"⟩]⟩
      (storeAt "singleprod") = .error "malformed ReplicaSet name: single" :=
  ⟨by decide,
   (malformed_iff_no_dash "prod" "web-0" "single" [] (storeAt "singleprod")).2.1.mpr
     (by decide)⟩

/-- C5: for a pod whose first owner has a kind other than `StatefulSet` and
`ReplicaSet`, `getRecommendationForPod` fails with the unsupported-owner-kind
error for that kind, whatever the owner name, the later owner references and
the store are. -/
theorem unsupported_kind_fails (ns pn kind name : String) (rest : List OwnerReference)
    (recs : RecMap) (h1 : kind ≠ "StatefulSet") (h2 : kind ≠ "ReplicaSet") :
    getRecommendationForPod ⟨ns, pn, ⟨kind, name⟩ :: rest⟩ recs =
      .error (unsupportedOwnerKindError kind) :=
  get_of_key_error recs (key_unsupported ns pn kind name rest h1 h2)

/-- Instance of C5: a DaemonSet owner is rejected even with a StatefulSet in
second position and an entry under every candidate key. -/
theorem unsupported_kind_fails_witness :
    "DaemonSet" ≠ "StatefulSet" ∧ "DaemonSet" ≠ "ReplicaSet" ∧
    getRecommendationForPod
      ⟨"prod", "web-0", [⟨"DaemonSet", "web"⟩, ⟨"StatefulSet", "web"⟩]⟩
      (fun _ => some sampleRec) = .error "unsupported owner kind: DaemonSet" :=
  ⟨by decide, by decide,
   unsupported_kind_fails "prod" "web-0" "DaemonSet" "web" [⟨"StatefulSet", "web"⟩]
     (fun _ => some sampleRec) (by decide) (by decide)⟩

/-- C6: for a pod with an empty owner-reference list, `getRecommendationForPod`
fails with the no-owner error (which names the pod) in every namespace and
against every store, and returns no recommendation. -/
theorem no_owner_fails (ns pn : String) (recs : RecMap) :
    getRecommendationForPod ⟨ns, pn, []⟩ recs = .error (noOwnerError ns pn) ∧
    ∀ rec, getRecommendationForPod ⟨ns, pn, []⟩ recs ≠ .ok rec := by
  have h := get_of_key_error recs (key_nil ns pn)
  refine ⟨h, fun rec hr => ?_⟩
  rw [h] at hr
  cases hr

/-! ## Classification of the outcomes -/

/-- C7: every call of `getRecommendationForPod` has exactly one of the five
outcomes.  An error of the key derivation (no owner, unsupported kind,
malformed name) is returned as it is and whether it occurs, and which one, is
the same against every store.  The no-recommendation-found error occurs
exactly when the key derivation succeeds and the store has no entry under the
key, and a record is returned exactly when it is the store's entry under the
derived key. -/
theorem outcome_classification (pod : Pod) (recs recs' : RecMap) :
    (∃! o : Outcome, o.holds (getRecommendationForPod pod recs)) ∧
    (∀ e, key pod = .error e → getRecommendationForPod pod recs = .error e) ∧
    (∀ o : Outcome, o ≠ .noRecommendationFound → o ≠ .success →
      o.holds (getRecommendationForPod pod recs) →
      (∃ e, key pod = .error e ∧ getRecommendationForPod pod recs = .error e) ∧
      getRecommendationForPod pod recs' = getRecommendationForPod pod recs) ∧
    (∀ k, getRecommendationForPod pod recs = .error (noRecommendationFoundError k) ↔
      key pod = .ok k ∧ recs k = none) ∧
    (Outcome.noRecommendationFound.holds (getRecommendationForPod pod recs) ↔
      ∃ k, key pod = .ok k ∧ recs k = none) ∧
    (∀ rec, getRecommendationForPod pod recs = .ok rec ↔
      ∃ k, key pod = .ok k ∧ recs k = some rec) := by
  cases hk : key pod with
  | error e =>
    have hg : ∀ r : RecMap, getRecommendationForPod pod r = .error e :=
      fun r => get_of_key_error r hk
    obtain ⟨o, ho1, ho2, ho⟩ := key_error_holds hk
    rw [hg recs, hg recs']
    refine ⟨⟨o, ho, fun o' ho' => holds_unique ho' ho⟩, ?_, ?_, ?_, ?_, ?_⟩
    · intro e' he'
      cases he'
      rfl
    · intro _ _ _ _
      exact ⟨⟨e, rfl, rfl⟩, rfl⟩
    · intro k
      constructor
      · intro h
        exact absurd (@holds_unique _ .noRecommendationFound _ ho ⟨k, h⟩) ho1
      · intro h
        cases h.1
    · constructor
      · intro h
        exact absurd (holds_unique ho h) ho1
      · rintro ⟨k, h, _⟩
        cases h
    · intro rec
      constructor
      · intro h
        cases h
      · rintro ⟨k, h, _⟩
        cases h
  | ok k =>
    have hg : ∀ r : RecMap, getRecommendationForPod pod r = lookup r k :=
      fun r => get_of_key_ok r hk
    rw [hg recs, hg recs']
    rcases lookup_cases recs k with ⟨hr, hl⟩ | ⟨rec, hr, hl⟩
    · rw [hl]
      have hN : Outcome.noRecommendationFound.holds
          (.error (noRecommendationFoundError k) : Except String Recommendation) := ⟨k, rfl⟩
      refine ⟨⟨_, hN, fun o' ho' => holds_unique ho' hN⟩, ?_, ?_, ?_, ?_, ?_⟩
      · intro e' he'
        cases he'
      · intro o ho1 _ ho
        exact absurd (holds_unique ho hN) ho1
      · intro k'
        constructor
        · intro h
          have hkk : k = k' := noRecommendationFoundError_injective (Except.error.inj h)
          subst hkk
          exact ⟨rfl, hr⟩
        · rintro ⟨h, _⟩
          cases h
          rfl
      · exact ⟨fun _ => ⟨k, rfl, hr⟩, fun _ => hN⟩
      · intro rec
        constructor
        · intro h
          cases h
        · rintro ⟨k', h, h'⟩
          cases h
          rw [hr] at h'
          cases h'
    · rw [hl]
      have hS : Outcome.success.holds (.ok rec : Except String Recommendation) := ⟨rec, rfl⟩
      refine ⟨⟨_, hS, fun o' ho' => holds_unique ho' hS⟩, ?_, ?_, ?_, ?_, ?_⟩
      · intro e' he'
        cases he'
      · intro o _ ho2 ho
        exact absurd (holds_unique ho hS) ho2
      · intro k'
        constructor
        · intro h
          cases h
        · rintro ⟨h, h'⟩
          cases h
          rw [hr] at h'
          cases h'
      · constructor
        · intro h
          exact absurd (holds_unique h hS) (by decide)
        · rintro ⟨k', h, h'⟩
          cases h
          rw [hr] at h'
          cases h'
      · intro rec'
        constructor
        · intro h
          cases h
          exact ⟨k, rfl, hr⟩
        · rintro ⟨k', h, h'⟩
          cases h
          rw [hr] at h'
          cases h'
          rfl

/-! ## The key as an identity of the workload -/

/-- C8, as stated, fails: the StatefulSet `ab` in namespace `c` and the
StatefulSet `a` in namespace `bc` have different canonical owner names and
different namespaces, and both derive the key `abc`. -/
theorem key_not_injective :
    ownerName ⟨"c", "p-0", [⟨"StatefulSet", "ab"⟩]⟩ = .ok "ab" ∧
    ownerName ⟨"bc", "q-0", [⟨"StatefulSet", "a"⟩]⟩ = .ok "a" ∧
    key ⟨"c", "p-0", [⟨"StatefulSet", "ab"⟩]⟩ = .ok "abc" ∧
    key ⟨"bc", "q-0", [⟨"StatefulSet", "a"⟩]⟩ = .ok "abc" ∧
    ¬ (key ⟨"c", "p-0", [⟨"StatefulSet", "ab"⟩]⟩ = key ⟨"bc", "q-0", [⟨"StatefulSet", "a"⟩]⟩ ↔
        "ab" = "a" ∧ "c" = "bc") := by
  decide

/-- C8, amended: for two pods whose keys resolve, with canonical owner names
`n1`, `n2`, the derived keys are equal exactly when `n1 ++ namespace1` and
`n2 ++ namespace2` are the same string.  Equal names and namespaces therefore
give equal keys, and the converse holds whenever the two names, or the two
namespaces, have the same length (in particular when the namespaces are equal
or the names are equal). -/
theorem key_eq_iff (p1 p2 : Pod) (n1 n2 : String)
    (h1 : ownerName p1 = .ok n1) (h2 : ownerName p2 = .ok n2) :
    key p1 = .ok (n1 ++ p1.Namespace) ∧ key p2 = .ok (n2 ++ p2.Namespace) ∧
    (key p1 = key p2 ↔ n1 ++ p1.Namespace = n2 ++ p2.Namespace) ∧
    (n1 = n2 ∧ p1.Namespace = p2.Namespace → key p1 = key p2) ∧
    (n1.length = n2.length ∨ p1.Namespace.length = p2.Namespace.length →
      (key p1 = key p2 ↔ n1 = n2 ∧ p1.Namespace = p2.Namespace)) := by
  have k1 : key p1 = .ok (n1 ++ p1.Namespace) := by simp [key, h1]
  have k2 : key p2 = .ok (n2 ++ p2.Namespace) := by simp [key, h2]
  have hiff : key p1 = key p2 ↔ n1 ++ p1.Namespace = n2 ++ p2.Namespace := by
    rw [k1, k2]
    exact ⟨Except.ok.inj, fun h => by rw [h]⟩
  refine ⟨k1, k2, hiff, ?_, ?_⟩
  · rintro ⟨hn, hns⟩
    rw [hiff, hn, hns]
  · intro hlen
    rw [hiff]
    constructor
    · intro h
      have hd : n1.data ++ p1.Namespace.data = n2.data ++ p2.Namespace.data := by
        simpa [String.data_append] using congrArg String.data h
      have hl := congrArg List.length hd
      simp only [List.length_append] at hl
      have hlen1 : n1.data.length = n2.data.length := by
        rcases hlen with h | h
        · exact h
        · have : p1.Namespace.data.length = p2.Namespace.data.length := h
          omega
      obtain ⟨ha, hb⟩ := List.append_inj hd hlen1
      exact ⟨String.ext ha, String.ext hb⟩
    · rintro ⟨hn, hns⟩
      rw [hn, hns]

/-- Instance of C8 amended: a ReplicaSet pod of deployment `web` and a
StatefulSet pod named `web`, both in `prod`. -/
theorem key_eq_iff_witness :
    ownerName ⟨"prod", "p-0", [⟨"ReplicaSet", "web-75cb66cbcf"⟩]⟩ = .ok "web" ∧
    ownerName ⟨"prod", "q-0", [⟨"StatefulSet", "web"⟩]⟩ = .ok "web" ∧
    key ⟨"prod", "p-0", [⟨"ReplicaSet", "web-75cb66cbcf"⟩]⟩ =
      key ⟨"prod", "q-0", [⟨"StatefulSet", "web"⟩]⟩ :=
  ⟨by decide, by decide,
   (key_eq_iff ⟨"prod", "p-0", [⟨"ReplicaSet", "web-75cb66cbcf"⟩]⟩
      ⟨"prod", "q-0", [⟨"StatefulSet", "web"⟩]⟩ "web" "web" (by decide) (by decide)).2.2.2.1
      ⟨rfl, rfl⟩⟩

/-- C9: a pod owned by the StatefulSet `ab` in namespace `c` and a pod owned by
the StatefulSet `a` in namespace `bc` have different owner names and different
namespaces, both derive the key `abc`, and get the same result from
`getRecommendationForPod` against every store. -/
theorem delimiter_free_key_collision (pn1 pn2 : String) (rest1 rest2 : List OwnerReference)
    (recs : RecMap) :
    "ab" ≠ "a" ∧ "c" ≠ "bc" ∧
    key ⟨"c", pn1, ⟨"StatefulSet", "ab"⟩ :: rest1⟩ = .ok "abc" ∧
    key ⟨"bc", pn2, ⟨"StatefulSet", "a"⟩ :: rest2⟩ = .ok "abc" ∧
    getRecommendationForPod ⟨"c", pn1, ⟨"StatefulSet", "ab"⟩ :: rest1⟩ recs =
      getRecommendationForPod ⟨"bc", pn2, ⟨"StatefulSet", "a"⟩ :: rest2⟩ recs := by
  have k1 : key ⟨"c", pn1, ⟨"StatefulSet", "ab"⟩ :: rest1⟩ = .ok "abc" :=
    key_statefulSet "c" pn1 "ab" rest1
  have k2 : key ⟨"bc", pn2, ⟨"StatefulSet", "a"⟩ :: rest2⟩ = .ok "abc" :=
    key_statefulSet "bc" pn2 "a" rest2
  refine ⟨by decide, by decide, k1, k2, ?_⟩
  rw [get_of_key_ok recs k1, get_of_key_ok recs k2]

/-! ## Rounding performed by `formatMemory` -/

/-- C10, as stated, fails: `2 ^ 53 + 524287` bytes are `2 ^ 33` mebibytes and a
fraction below one half, which the specified rounding takes to `8589934592`,
while `formatMemory` prints `8589934593Mi`. -/
theorem formatMemory_differs_from_exact_rounding :
    (-2 ^ 63 : Int) ≤ 9007199255265279 ∧ (9007199255265279 : Int) < 2 ^ 63 ∧
    float64 9007199255265279 = 9007199255265280 ∧
    formatMemory 9007199255265279 = "8589934593Mi" ∧
    specFormatMemory 9007199255265279 = "8589934592Mi" ∧
    formatMemory 9007199255265279 ≠ specFormatMemory 9007199255265279 := by
  have hf : formatMemory 9007199255265279 = "8589934593Mi" := by
    unfold formatMemory
    rw [roundedMi_eq]
    decide
  have hs : specFormatMemory 9007199255265279 = "8589934592Mi" := by
    unfold specFormatMemory
    rw [show ((9007199255265279 : Int) : ℚ) / 1048576
        = (((9007199255265279 : Int) : Int) : ℚ) / 1048576 from rfl, roundHalfAwayFromZero_eq]
    decide
  have h64 : float64 9007199255265279 = 9007199255265280 := by
    unfold float64
    rw [if_neg (by decide), show roundNearestEven53 (9007199255265279 : Int).natAbs
      = 9007199255265280 from by decide]
    norm_num
  refine ⟨by decide, by decide, h64, hf, hs, ?_⟩
  rw [hf, hs]
  decide

/-- C10, amended: for every 64-bit signed `bytes`, `formatMemory(bytes)` is
the decimal rendering, followed by `Mi`, of `float64(bytes) / 1048576` rounded
to the nearest integer with halves away from zero.  For `|bytes| ≤ 2 ^ 53` the
conversion `float64(bytes)` is exact and the result is the rounding of
`bytes / 1048576` itself; over the whole range the printed integer differs from
that rounding by at most one, and it is within the `int64` range, so that no
step of the function fails. -/
theorem formatMemory_rounds_float64_quotient (bytes : Int)
    (hlo : -2 ^ 63 ≤ bytes) (hhi : bytes < 2 ^ 63) :
    formatMemory bytes
      = toString (roundHalfAwayFromZero (float64 bytes / 1048576)) ++ "Mi" ∧
    (-2 ^ 53 ≤ bytes → bytes ≤ 2 ^ 53 →
      float64 bytes = (bytes : ℚ) ∧ formatMemory bytes = specFormatMemory bytes) ∧
    |roundedMi bytes - roundHalfAwayFromZero ((bytes : ℚ) / 1048576)| ≤ 1 ∧
    |roundedMi bytes| ≤ 2 ^ 43 := by
  have ha : bytes.natAbs < 2 ^ 64 := by omega
  obtain ⟨n1, n2⟩ := roundNearestEven53_near ha
  refine ⟨by rw [roundHalfAwayFromZero_float64]; rfl, ?_, ?_, ?_⟩
  · intro h1 h2
    have hle : bytes.natAbs ≤ 2 ^ 53 := by omega
    have hex := roundNearestEven53_of_le hle
    have h64 : float64 bytes = (bytes : ℚ) := by
      unfold float64
      rw [hex]
      by_cases hb : bytes < 0
      · rw [if_pos hb]
        have : bytes = -((bytes.natAbs : Nat) : Int) := by omega
        calc -((bytes.natAbs : Nat) : ℚ) = ((-((bytes.natAbs : Nat) : Int) : Int) : ℚ) := by
              rw [Int.cast_neg, Int.cast_natCast]
          _ = (bytes : ℚ) := congrArg _ this.symm
      · rw [if_neg hb]
        have : bytes = ((bytes.natAbs : Nat) : Int) := by omega
        calc ((bytes.natAbs : Nat) : ℚ) = ((((bytes.natAbs : Nat) : Int) : Int) : ℚ) :=
              (Int.cast_natCast _).symm
          _ = (bytes : ℚ) := congrArg _ this.symm
    refine ⟨h64, ?_⟩
    unfold formatMemory specFormatMemory
    rw [← roundHalfAwayFromZero_float64, h64]
  · rw [roundedMi_eq, roundHalfAwayFromZero_eq]
    exact signedRoundDiv_near _ n1 n2
  · rw [roundedMi_eq]
    apply signedRoundDiv_bound
    omega

/-- Instance of C10 amended: `1572864` bytes (1.5 Mi) are printed as `2Mi` and
`-524288` bytes (-0.5 Mi) as `-1Mi`, both the exact roundings. -/
theorem formatMemory_rounds_float64_quotient_witness :
    ((-2 ^ 63 : Int) ≤ 1572864 ∧ (1572864 : Int) < 2 ^ 63) ∧
    formatMemory 1572864 = specFormatMemory 1572864 ∧
    ((-2 ^ 63 : Int) ≤ -524288 ∧ (-524288 : Int) < 2 ^ 63) ∧
    formatMemory (-524288) = specFormatMemory (-524288) :=
  ⟨⟨by decide, by decide⟩,
   ((formatMemory_rounds_float64_quotient 1572864 (by decide) (by decide)).2.1
      (by decide) (by decide)).2,
   ⟨by decide, by decide⟩,
   ((formatMemory_rounds_float64_quotient (-524288) (by decide) (by decide)).2.1
      (by decide) (by decide)).2⟩

/-! ## Lemmas on the decimal rendering of integers -/

theorem toDigitsCore_append (fuel : Nat) : ∀ (n : Nat) (ds : List Char),
    Nat.toDigitsCore 10 fuel n ds = Nat.toDigitsCore 10 fuel n [] ++ ds := by
  induction fuel with
  | zero =>
    intro n ds
    rfl
  | succ fuel ih =>
    intro n ds
    simp only [Nat.toDigitsCore]
    split_ifs
    · rfl
    · rw [ih (n / 10) (Nat.digitChar (n % 10) :: ds), ih (n / 10) [Nat.digitChar (n % 10)]]
      simp

theorem decimalValue_append_singleton (xs : List Char) (c : Char) :
    decimalValue (xs ++ [c]) = 10 * decimalValue xs + (c.toNat - 48) := by
  simp [decimalValue, List.foldl_append]

theorem digitChar_value : ∀ d : Nat, d < 10 → (Nat.digitChar d).toNat - 48 = d := by
  decide

theorem digitChar_isDigit : ∀ d : Nat, d < 10 → (Nat.digitChar d).isDigit = true := by
  decide

theorem digitChar_ne_minus : ∀ d : Nat, d < 10 → Nat.digitChar d ≠ '-' := by
  decide

/-- The digits printed for `n` denote `n`. -/
theorem decimalValue_toDigitsCore (fuel : Nat) : ∀ n : Nat, n < fuel →
    decimalValue (Nat.toDigitsCore 10 fuel n []) = n := by
  induction fuel with
  | zero =>
    intro n h
    omega
  | succ fuel ih =>
    intro n h
    simp only [Nat.toDigitsCore]
    have hd := digitChar_value (n % 10) (Nat.mod_lt n (by decide))
    split_ifs with h0
    · have := decimalValue_append_singleton [] (Nat.digitChar (n % 10))
      simp only [List.nil_append] at this
      rw [this, hd]
      simp only [decimalValue, List.foldl_nil]
      omega
    · rw [toDigitsCore_append, decimalValue_append_singleton, hd, ih (n / 10) (by omega)]
      omega

theorem decimalValue_toDigits (n : Nat) : decimalValue (Nat.toDigits 10 n) = n :=
  decimalValue_toDigitsCore (n + 1) n (Nat.lt_succ_self n)

/-- The characters printed for `n` are digits. -/
theorem all_isDigit_toDigitsCore (fuel : Nat) : ∀ (n : Nat) (ds : List Char),
    ds.all Char.isDigit = true → (Nat.toDigitsCore 10 fuel n ds).all Char.isDigit = true := by
  induction fuel with
  | zero =>
    intro n ds h
    exact h
  | succ fuel ih =>
    intro n ds h
    simp only [Nat.toDigitsCore]
    have hd := digitChar_isDigit (n % 10) (Nat.mod_lt n (by decide))
    split_ifs
    · simp [hd, h]
    · apply ih
      simp [hd, h]

theorem toDigits_eq_cons (n : Nat) :
    ∃ c cs, Nat.toDigits 10 n = c :: cs ∧ c ≠ '-' ∧ (c :: cs).all Char.isDigit = true := by
  have hall : (Nat.toDigits 10 n).all Char.isDigit = true :=
    all_isDigit_toDigitsCore (n + 1) n [] rfl
  cases hds : Nat.toDigits 10 n with
  | nil =>
    have h := decimalValue_toDigits n
    have hn : Nat.toDigits 10 n = Nat.toDigitsCore 10 (n + 1) n [] := rfl
    rw [hn] at hds
    simp only [Nat.toDigitsCore] at hds
    split_ifs at hds
    rw [toDigitsCore_append] at hds
    simp at hds
  | cons c cs =>
    rw [hds] at hall
    refine ⟨c, cs, rfl, ?_, hall⟩
    intro hc
    subst hc
    simp at hall

/-- The characters of the rendering of an integer by `%d`. -/
theorem toString_int_data (i : Int) :
    (toString i).data
      = if i < 0 then '-' :: Nat.toDigits 10 i.natAbs else Nat.toDigits 10 i.natAbs := by
  cases i with
  | ofNat n =>
    have : ¬ Int.ofNat n < 0 := Int.not_lt.mpr (Int.ofNat_nonneg n)
    rw [if_neg this]
    rfl
  | negSucc m =>
    have : Int.negSucc m < 0 := Int.negSucc_lt_zero m
    rw [if_pos this]
    rfl

/-- The rendering of an integer by `%d` is a decimal numeral that denotes the
integer. -/
theorem signedDecimal_toString (i : Int) :
    isSignedDecimal (toString i).data = true ∧ signedDecimalValue (toString i).data = i := by
  rw [toString_int_data]
  obtain ⟨c, cs, hds, hc, hall⟩ := toDigits_eq_cons i.natAbs
  have hv := decimalValue_toDigits i.natAbs
  rw [hds] at hv
  by_cases hi : i < 0
  · rw [if_pos hi, hds]
    refine ⟨by simpa [isSignedDecimal] using hall, ?_⟩
    simp only [signedDecimalValue, if_true, hv]
    omega
  · rw [if_neg hi, hds]
    refine ⟨by simpa [isSignedDecimal, hc] using hall, ?_⟩
    simp only [signedDecimalValue, if_neg hc, hv]
    omega

theorem toString_int_injective {i j : Int} (h : toString i = toString j) : i = j := by
  rw [← (signedDecimal_toString i).2, ← (signedDecimal_toString j).2, h]

theorem append_right_cancel_string {a b t : String} (h : a ++ t = b ++ t) : a = b := by
  have := congrArg String.data h
  simp only [String.data_append] at this
  exact String.ext (List.append_cancel_right this)

/-! ## Rounding of non-negative byte counts -/

/-- C11: for `0 ≤ bytes ≤ 2 ^ 53`, `formatMemory(bytes)` is the decimal
rendering of `floor((bytes + 524288) / 1048576)` followed by `Mi`: halves of a
mebibyte round up. -/
theorem formatMemory_round_half_up (bytes : Int) (h0 : 0 ≤ bytes) (h1 : bytes ≤ 2 ^ 53) :
    formatMemory bytes = toString ((bytes + 524288) / 1048576) ++ "Mi" := by
  obtain ⟨n, rfl⟩ := Int.eq_ofNat_of_zero_le h0
  have hn : n ≤ 2 ^ 53 := by exact_mod_cast h1
  have hneg : ¬ ((n : Nat) : Int) < 0 := by omega
  unfold formatMemory
  rw [roundedMi_eq, Int.natAbs_ofNat, roundNearestEven53_of_le hn]
  simp only [hneg, decide_False, signedRoundDiv]
  norm_cast

/-- Instances of C11: `1048576`, `1572864`, `524288` and `0` bytes are printed
as `1Mi`, `2Mi`, `1Mi` and `0Mi`. -/
theorem formatMemory_round_half_up_witness :
    formatMemory 1048576 = "1Mi" ∧ formatMemory 1572864 = "2Mi" ∧
    formatMemory 524288 = "1Mi" ∧ formatMemory 0 = "0Mi" :=
  ⟨formatMemory_round_half_up 1048576 (by decide) (by decide),
   formatMemory_round_half_up 1572864 (by decide) (by decide),
   formatMemory_round_half_up 524288 (by decide) (by decide),
   formatMemory_round_half_up 0 (by decide) (by decide)⟩

/-! ## Rendering of CPU quantities -/

/-- C12: for every integer `millicores`, `formatCPU(millicores)` is the signed
decimal rendering of `millicores` followed by `m`: the text before the `m` is
a decimal numeral (a `-` exactly for negative values, then digits) that denotes
`millicores` itself, so that no conversion or clamping takes place and
different values are rendered differently; `250`, `0` and `-10` are rendered
`250m`, `0m` and `-10m`. -/
theorem formatCPU_renders_millicores (millicores : Int) :
    formatCPU millicores = toString millicores ++ "m" ∧
    (∃ numeral : List Char,
      formatCPU millicores = String.mk (numeral ++ ['m']) ∧
      isSignedDecimal numeral = true ∧
      signedDecimalValue numeral = millicores ∧
      (numeral.head? = some '-' ↔ millicores < 0)) ∧
    (∀ other : Int, formatCPU other = formatCPU millicores → other = millicores) ∧
    formatCPU 250 = "250m" ∧ formatCPU 0 = "0m" ∧ formatCPU (-10) = "-10m" := by
  refine ⟨rfl, ⟨(toString millicores).data, ?_, (signedDecimal_toString millicores).1,
    (signedDecimal_toString millicores).2, ?_⟩, ?_, by decide, by decide, by decide⟩
  · apply String.ext
    simp [formatCPU, String.data_append]
  · rw [toString_int_data]
    obtain ⟨c, cs, hds, hc, _⟩ := toDigits_eq_cons millicores.natAbs
    by_cases hi : millicores < 0
    · simp [hi]
    · simp [hi, hds, hc]
  · intro other h
    exact toString_int_injective (append_right_cancel_string h)

/-! ## The patch payload -/

/-- C13: for every recommendation `rec`, the payload built by
`patchPodResources` has the single entry `spec`, whose single entry
`containers` is a list of exactly one container; that container has the name
`rec.ContainerName` and the resources `requests = {cpu: formatCPU(CPURequest),
memory: formatMemory(MemRequest)}` and `limits = {cpu: formatCPU(CPULimit),
memory: formatMemory(MemLimit)}`.  It is the body of the call the function
issues, whose target is `rec.Namespace` and `rec.PodName`, and it is the same
for two recommendations that differ only in `Namespace` and `PodName`. -/
theorem patch_payload_shape (rec : Recommendation) :
    (patch rec).keys = ["spec"] ∧
    (∃ spec container resources : Value,
      (patch rec).get? "spec" = some spec ∧
      spec.keys = ["containers"] ∧
      spec.get? "containers" = some (.list [container]) ∧
      container.keys = ["name", "resources"] ∧
      container.get? "name" = some (.str rec.ContainerName) ∧
      container.get? "resources" = some resources ∧
      resources.keys = ["requests", "limits"] ∧
      resources.get? "requests" = some (.map [
        ("cpu", .str (formatCPU rec.CPURequest)),
        ("memory", .str (formatMemory rec.MemRequest))]) ∧
      resources.get? "limits" = some (.map [
        ("cpu", .str (formatCPU rec.CPULimit)),
        ("memory", .str (formatMemory rec.MemLimit))])) ∧
    (patchPodResources rec).Body = patch rec ∧
    (patchPodResources rec).Namespace = rec.Namespace ∧
    (patchPodResources rec).Name = rec.PodName ∧
    (∀ ns pn : String, patch { rec with Namespace := ns, PodName := pn } = patch rec) :=
  ⟨rfl, ⟨_, _, _, rfl, rfl, rfl, rfl, rfl, rfl, rfl, rfl, rfl⟩, rfl, rfl, rfl, fun _ _ => rfl⟩

/-! ## Matching as an operation on the store -/

/-- A call returns what `getRecommendationForPod` returns on the store as a
value, and leaves the store as it was. -/
theorem call_eq (pod : Pod) (recs : RecMap) :
    call pod recs = (getRecommendationForPod pod recs, recs) := by
  unfold call getRecommendationForPodM getRecommendationForPod
  cases pod.OwnerReferences with
  | nil => rfl
  | cons owner rest =>
    dsimp only
    split_ifs
    all_goals first | rfl | skip
    all_goals
      simp only [ExceptT.run, bind, ExceptT.bind, ExceptT.mk, StateT.bind, ExceptT.bindCont, get,
        getThe, MonadStateOf.get, liftM, monadLift, MonadLift.monadLift, ExceptT.lift, StateT.get,
        pure, ExceptT.pure, StateT.pure, StateT.run, throw, throwThe, MonadExceptOf.throw,
        Functor.map, StateT.map, Except.bind, Except.pure, Id.run]
    all_goals
      generalize recs _ = entry
      cases entry <;> rfl

theorem key_first_owner (ns pn1 pn2 : String) (owner : OwnerReference)
    (rest1 rest2 : List OwnerReference) :
    key ⟨ns, pn1, owner :: rest1⟩ = key ⟨ns, pn2, owner :: rest2⟩ := rfl

theorem get_congr_key {p1 p2 : Pod} (recs : RecMap) (h : key p1 = key p2) :
    getRecommendationForPod p1 recs = getRecommendationForPod p2 recs := by
  rw [getRecommendationForPod_eq, getRecommendationForPod_eq, h]

/-- C14: a call of `getRecommendationForPod` leaves the store as it was, and a
second call with the same pod on the store left by the first returns the same
outcome (the same record or the same error) and again leaves the store as it
was. -/
theorem matching_idempotent (pod : Pod) (recs : RecMap) :
    (call pod recs).1 = getRecommendationForPod pod recs ∧
    (call pod recs).2 = recs ∧
    (call pod (call pod recs).2).1 = (call pod recs).1 ∧
    (call pod (call pod recs).2).2 = recs := by
  simp only [call_eq, and_self]

/-! ## The part of a pod that matching reads -/

/-- C15: two pods with the same namespace and the same first owner reference
get the same outcome from `getRecommendationForPod` against every store,
whatever their later owner references (and names) are.  In particular a pod
whose first owner is of an unsupported kind fails with the
unsupported-owner-kind error whatever owner stands in second position; so does
the pod owned by a DaemonSet and then by the StatefulSet `web`, against a store
with an entry under `webprod`. -/
theorem first_owner_only (ns pn1 pn2 : String) (owner : OwnerReference)
    (rest1 rest2 : List OwnerReference) (recs : RecMap) :
    getRecommendationForPod ⟨ns, pn1, owner :: rest1⟩ recs =
      getRecommendationForPod ⟨ns, pn2, owner :: rest2⟩ recs ∧
    (owner.Kind ≠ "StatefulSet" → owner.Kind ≠ "ReplicaSet" →
      ∀ second : OwnerReference,
        getRecommendationForPod ⟨ns, pn1, owner :: second :: rest1⟩ recs =
          .error (unsupportedOwnerKindError owner.Kind)) ∧
    storeAt "webprod" "webprod" = some sampleRec ∧
    getRecommendationForPod ⟨"prod", "web-0", [⟨"StatefulSet", "web"⟩]⟩ (storeAt "webprod") =
      .ok sampleRec ∧
    getRecommendationForPod ⟨"prod", "web-0", [⟨"DaemonSet", "web"⟩, ⟨"StatefulSet", "web"⟩]⟩
      (storeAt "webprod") = .error "unsupported owner kind: DaemonSet" := by
  refine ⟨get_congr_key recs (key_first_owner ns pn1 pn2 owner rest1 rest2), ?_, by decide,
    by decide, by decide⟩
  intro h1 h2 second
  obtain ⟨kind, name⟩ := owner
  exact get_of_key_error recs (key_unsupported ns pn1 kind name (second :: rest1) h1 h2)

/-- C18: a pod owned by the StatefulSet `d` and a pod owned by the ReplicaSet
`d ++ "-" ++ h` (with `h` free of `-`), both in namespace `ns`, derive the same
key `d ++ ns` and get the same outcome from `getRecommendationForPod` against
every store: the owner kind is not part of the key. -/
theorem owner_kind_not_in_key (d h ns pn1 pn2 : String) (rest1 rest2 : List OwnerReference)
    (recs : RecMap) (hh : '-' ∉ h.data) :
    key ⟨ns, pn1, ⟨"StatefulSet", d⟩ :: rest1⟩ = .ok (d ++ ns) ∧
    key ⟨ns, pn2, ⟨"ReplicaSet", d ++ "-" ++ h⟩ :: rest2⟩ = .ok (d ++ ns) ∧
    getRecommendationForPod ⟨ns, pn1, ⟨"StatefulSet", d⟩ :: rest1⟩ recs =
      getRecommendationForPod ⟨ns, pn2, ⟨"ReplicaSet", d ++ "-" ++ h⟩ :: rest2⟩ recs := by
  have k1 := key_statefulSet ns pn1 d rest1
  have k2 := key_replicaSet_hash d h ns pn2 rest2 hh
  exact ⟨k1, k2, get_congr_key recs (k1.trans k2.symm)⟩

/-- Instance of C18: the StatefulSet `web` and the ReplicaSet `web-75cb66cbcf`
of the Deployment `web`, both in `prod`, share the recommendation stored under
`webprod`. -/
theorem owner_kind_not_in_key_witness :
    '-' ∉ "75cb66cbcf".data ∧
    getRecommendationForPod ⟨"prod", "web-0", [⟨"StatefulSet", "web"⟩]⟩ (storeAt "webprod") =
      getRecommendationForPod ⟨"prod", "web-7d9f", [⟨"ReplicaSet", "web-75cb66cbcf"⟩]⟩
        (storeAt "webprod") :=
  ⟨by decide,
   (owner_kind_not_in_key "web" "75cb66cbcf" "prod" "web-0" "web-7d9f" [] []
      (storeAt "webprod") (by decide)).2.2⟩

/-! ## Lemmas on the order and the sign of the rounding -/

theorem roundNearestEven53_eq (a : Nat) :
    roundNearestEven53 a = roundTiesEven (2 ^ excessBits a a) a := rfl

theorem lt_two_pow_excessBits_self (a : Nat) : a < 2 ^ (53 + excessBits a a) :=
  lt_two_pow_excessBits a a
    (Nat.lt_of_lt_of_le (Nat.lt_two_pow a)
      (Nat.pow_le_pow_right (by decide) (Nat.le_add_left _ _)))

/-- A larger number has at least as many excess bits. -/
theorem excessBits_mono {x y : Nat} (h : x ≤ y) : excessBits x x ≤ excessBits y y := by
  by_contra hc
  have hlt : excessBits y y < excessBits x x := Nat.lt_of_not_le hc
  have hx := two_pow_le_of_excessBits_pos x x (by omega)
  have hy := lt_two_pow_excessBits_self y
  have hp : 2 ^ (53 + excessBits y y) ≤ 2 ^ (52 + excessBits x x) :=
    Nat.pow_le_pow_right (by decide) (by omega)
  omega

theorem roundTiesEven_le (q a : Nat) : roundTiesEven q a ≤ (a / q + 1) * q := by
  unfold roundTiesEven
  have : a / q * q ≤ (a / q + 1) * q := Nat.mul_le_mul_right q (Nat.le_succ _)
  split_ifs <;> first | exact this | exact Nat.le_refl _

theorem le_roundTiesEven (q a : Nat) : a / q * q ≤ roundTiesEven q a := by
  unfold roundTiesEven
  have : a / q * q ≤ (a / q + 1) * q := Nat.mul_le_mul_right q (Nat.le_succ _)
  split_ifs <;> first | exact this | exact Nat.le_refl _

/-- Rounding to a multiple of a fixed quantum preserves the order. -/
theorem roundTiesEven_mono {q x y : Nat} (hq : 0 < q) (h : x ≤ y) :
    roundTiesEven q x ≤ roundTiesEven q y := by
  have hm : x / q ≤ y / q := Nat.div_le_div_right h
  rcases Nat.lt_or_eq_of_le hm with hlt | heq
  · calc roundTiesEven q x ≤ (x / q + 1) * q := roundTiesEven_le q x
      _ ≤ y / q * q := Nat.mul_le_mul_right q hlt
      _ ≤ roundTiesEven q y := le_roundTiesEven q y
  · have hdx := Nat.div_add_mod x q
    have hdy := Nat.div_add_mod y q
    have hrx := Nat.mod_lt x hq
    have hry := Nat.mod_lt y hq
    unfold roundTiesEven
    rw [heq] at hdx ⊢
    have hcomm : y / q * q = q * (y / q) := Nat.mul_comm _ _
    simp only [Nat.add_mul, Nat.one_mul]
    split_ifs <;> omega

/-- The conversion to `float64` preserves the order. -/
theorem roundNearestEven53_mono {x y : Nat} (h : x ≤ y) :
    roundNearestEven53 x ≤ roundNearestEven53 y := by
  rw [roundNearestEven53_eq, roundNearestEven53_eq]
  rcases Nat.lt_or_eq_of_le (excessBits_mono h) with hlt | heq
  · have hsx := significand_lt x
    have hy := two_pow_le_of_excessBits_pos y y (by omega)
    have hqy : 0 < 2 ^ excessBits y y := Nat.two_pow_pos _
    have hmy : 2 ^ 52 ≤ y / 2 ^ excessBits y y := by
      rw [Nat.le_div_iff_mul_le hqy, ← Nat.pow_add]
      exact hy
    calc roundTiesEven (2 ^ excessBits x x) x
        ≤ (x / 2 ^ excessBits x x + 1) * 2 ^ excessBits x x := roundTiesEven_le _ _
      _ ≤ 2 ^ 53 * 2 ^ excessBits x x := Nat.mul_le_mul_right _ hsx
      _ = 2 ^ (53 + excessBits x x) := (Nat.pow_add 2 53 _).symm
      _ ≤ 2 ^ (52 + excessBits y y) := Nat.pow_le_pow_right (by decide) (by omega)
      _ = 2 ^ 52 * 2 ^ excessBits y y := Nat.pow_add 2 52 _
      _ ≤ y / 2 ^ excessBits y y * 2 ^ excessBits y y := Nat.mul_le_mul_right _ hmy
      _ ≤ roundTiesEven (2 ^ excessBits y y) y := le_roundTiesEven _ _
  · rw [heq]
    exact roundTiesEven_mono (Nat.two_pow_pos _) h

/-- The integer printed by `formatMemory` grows with the byte count. -/
theorem roundedMi_mono {a b : Int} (h : a ≤ b) : roundedMi a ≤ roundedMi b := by
  rw [roundedMi_eq, roundedMi_eq]
  unfold signedRoundDiv
  by_cases ha : a < 0 <;> by_cases hb : b < 0
  · have hab : b.natAbs ≤ a.natAbs := by omega
    have := roundNearestEven53_mono hab
    simp only [ha, hb, decide_True, if_true]
    omega
  · simp only [ha, hb, decide_True, decide_False, if_true, Bool.false_eq_true, if_false]
    omega
  · omega
  · have hab : a.natAbs ≤ b.natAbs := by omega
    have := roundNearestEven53_mono hab
    simp only [ha, hb, decide_False, Bool.false_eq_true, if_false]
    omega

/-- Negating the byte count negates the integer printed by `formatMemory`. -/
theorem roundedMi_neg (bytes : Int) : roundedMi (-bytes) = -roundedMi bytes := by
  rw [roundedMi_eq, roundedMi_eq, Int.natAbs_neg]
  unfold signedRoundDiv
  rcases Int.lt_trichotomy bytes 0 with h | h | h
  · have h1 : ¬ -bytes < 0 := by omega
    simp only [h, h1, decide_True, decide_False, if_true, Bool.false_eq_true, if_false]
    omega
  · subst h
    decide
  · have h1 : -bytes < 0 := by omega
    have h2 : ¬ bytes < 0 := by omega
    simp only [h1, h2, decide_True, decide_False, if_true, Bool.false_eq_true, if_false]

/-- The rendering of an integer by `%d` is never `-0`. -/
theorem toString_int_ne_minus_zero (i : Int) : toString i ≠ "-0" := by
  intro h
  have hv := (signedDecimal_toString i).2
  rw [h] at hv
  have hi : i = 0 := by
    rw [← hv]
    decide
  subst hi
  revert h
  decide

/-- For a 64-bit signed byte count the printed integer is within `± 2 ^ 43`, so
within the range of `int64`. -/
theorem roundedMi_bound {bytes : Int} (hlo : -2 ^ 63 ≤ bytes) (hhi : bytes < 2 ^ 63) :
    -2 ^ 43 ≤ roundedMi bytes ∧ roundedMi bytes ≤ 2 ^ 43 := by
  have ha : bytes.natAbs < 2 ^ 64 := by omega
  obtain ⟨n1, _⟩ := roundNearestEven53_near ha
  rw [roundedMi_eq]
  exact abs_le.mp (signedRoundDiv_bound _ (by omega))

/-! ## Sign and order of the printed memory quantity -/

/-- C16: for `0 ≤ bytes < 2 ^ 63`, the integer printed by
`formatMemory(-bytes)` is the negation of the integer printed by
`formatMemory(bytes)`, which lies between `0` and `2 ^ 43`; a result of zero is
printed as `0Mi`, and `-0Mi` is never printed. -/
theorem formatMemory_neg (bytes : Int) (h0 : 0 ≤ bytes) (h1 : bytes < 2 ^ 63) :
    roundedMi (-bytes) = -roundedMi bytes ∧
    formatMemory bytes = toString (roundedMi bytes) ++ "Mi" ∧
    formatMemory (-bytes) = toString (-roundedMi bytes) ++ "Mi" ∧
    (roundedMi bytes = 0 → formatMemory (-bytes) = "0Mi") ∧
    formatMemory (-bytes) ≠ "-0Mi" ∧
    (0 ≤ roundedMi bytes ∧ roundedMi bytes ≤ 2 ^ 43) := by
  have hneg := roundedMi_neg bytes
  have hrange : 0 ≤ roundedMi bytes ∧ roundedMi bytes ≤ 2 ^ 43 :=
    ⟨(show roundedMi 0 = 0 by rw [roundedMi_eq]; decide) ▸ roundedMi_mono h0,
      (roundedMi_bound (by omega) h1).2⟩
  have hfm : formatMemory (-bytes) = toString (-roundedMi bytes) ++ "Mi" := by
    unfold formatMemory
    rw [hneg]
  refine ⟨hneg, rfl, hfm, ?_, ?_, hrange⟩
  · intro hz
    rw [hfm, hz]
    decide
  · intro h
    have h2 : toString (roundedMi (-bytes)) ++ "Mi" = "-0" ++ "Mi" := h
    exact toString_int_ne_minus_zero _ (append_right_cancel_string h2)

/-- Instances of C16: `-524288`, `-1572864` and `-1` bytes are printed as
`-1Mi`, `-2Mi` and `0Mi`. -/
theorem formatMemory_neg_witness :
    ((0 : Int) ≤ 524288 ∧ (524288 : Int) < 2 ^ 63) ∧
    formatMemory (-524288) = "-1Mi" ∧ formatMemory (-1572864) = "-2Mi" ∧
    formatMemory (-1) = "0Mi" :=
  ⟨⟨by decide, by decide⟩,
   (formatMemory_neg 524288 (by decide) (by decide)).2.2.1.trans
     (by rw [roundedMi_eq]; decide),
   (formatMemory_neg 1572864 (by decide) (by decide)).2.2.1.trans
     (by rw [roundedMi_eq]; decide),
   (formatMemory_neg 1 (by decide) (by decide)).2.2.2.1
     (by rw [roundedMi_eq]; decide)⟩

/-- C17: for two 64-bit signed integers `a ≤ b`, the integer printed by
`formatMemory(a)` is at most the integer printed by `formatMemory(b)`, and both
lie within `± 2 ^ 43`. -/
theorem formatMemory_monotone (a b : Int) (ha : -2 ^ 63 ≤ a) (hab : a ≤ b) (hb : b < 2 ^ 63) :
    formatMemory a = toString (roundedMi a) ++ "Mi" ∧
    formatMemory b = toString (roundedMi b) ++ "Mi" ∧
    roundedMi a ≤ roundedMi b ∧
    -2 ^ 43 ≤ roundedMi a ∧ roundedMi b ≤ 2 ^ 43 :=
  ⟨rfl, rfl, roundedMi_mono hab, (roundedMi_bound ha (by omega)).1,
    (roundedMi_bound (by omega) hb).2⟩

/-- Instance of C17: across the first inexact conversion, from `2 ^ 53 + 524287`
to `2 ^ 53 + 524288` bytes, and from `-1` to `524288` bytes. -/
theorem formatMemory_monotone_witness :
    ((-2 ^ 63 : Int) ≤ 9007199255265279 ∧ (9007199255265279 : Int) ≤ 9007199255265280 ∧
      (9007199255265280 : Int) < 2 ^ 63) ∧
    roundedMi 9007199255265279 ≤ roundedMi 9007199255265280 ∧
    roundedMi (-1) ≤ roundedMi 524288 :=
  ⟨⟨by decide, by decide, by decide⟩,
   (formatMemory_monotone 9007199255265279 9007199255265280 (by decide) (by decide)
      (by decide)).2.2.1,
   (formatMemory_monotone (-1) 524288 (by decide) (by decide) (by decide)).2.2.1⟩

end Scaler
